/-
Verification of the ml4ps quantile normalizer and backend helpers.

The numeric code of `ML4PS/normalization.py` is embedded over ℚ (an exact
idealisation of the numpy float arithmetic): `np.quantile` with the default
linear interpolation, `np.unique`/`np.add.at` based deduplication,
`scipy.interpolate.interp1d(..., fill_value="extrapolate")`, and the
`SubtractFunction` class.  Nested Python dicts are embedded as association
lists (key order = insertion order), and external services (the pandapower
solver, the engine's column writes, the pickle byte stream) as explicit
function parameters or structural codecs.
-/
import Mathlib

namespace ML4PS

/-- Sorted copy of a list of rationals, as `np.sort` produces
(insertion sort, so that proofs can evaluate it on concrete data). -/
def npSort (l : List ℚ) : List ℚ := List.insertionSort (· ≤ ·) l

/-- `np.unique(v)`: the sorted list of distinct values of `v`. -/
def npUnique (v : List ℚ) : List ℚ := (npSort v).dedup

/-- `np.quantile(V, q)` with the default linear interpolation method:
with `a` the sorted data and `h = q*(n-1)`, interpolate between
`a[⌊h⌋]` and `a[min (⌊h⌋+1) (n-1)]`. -/
def npQuantile (V : List ℚ) (q : ℚ) : ℚ :=
  let a := npSort V
  let n := a.length
  let h := q * ((n : ℚ) - 1)
  let i := (⌊h⌋).toNat
  let lo := a.getD i 0
  let hi := a.getD (min (i + 1) (n - 1)) 0
  lo + (h - (i : ℚ)) * (hi - lo)

/-- `Normalizer.get_quantiles`: probabilities `p = np.arange(0, 1, 1/B)`
(that is `i / B` for `i = 0 .. B-1`) and the corresponding data quantiles
`v = np.quantile(values, p)`. -/
def get_quantiles (B : ℕ) (values : List ℚ) : List ℚ × List ℚ :=
  let p := (List.range B).map (fun i : ℕ => (i : ℚ) / (B : ℚ))
  (p.map (npQuantile values), p)

/-- `np.add.at(acc, idx, val)` for a single index/value pair. -/
def addAt (acc : List ℚ) (idx : ℕ) (val : ℚ) : List ℚ :=
  acc.set idx (acc.getD idx 0 + val)

/-- `Normalizer.merge_equal_quantiles`: `np.unique(v)` with inverse indices
and counts; the probabilities of the breakpoints sharing a value are summed
into the value's bin by `np.add.at` and divided by the bin's count. -/
def merge_equal_quantiles (v p : List ℚ) : List ℚ × List ℚ :=
  let v_unique := npUnique v
  let sums := (v.zip p).foldl
    (fun acc vp => addAt acc (v_unique.indexOf vp.1) vp.2)
    (v_unique.map (fun _ => (0 : ℚ)))
  let counts := v_unique.map (fun u => v.count u)
  let p_unique := (sums.zip counts).map (fun sc => sc.1 / (sc.2 : ℚ))
  (v_unique, p_unique)

/-- A fitted normalizing function: either the degenerate
`SubtractFunction` (all quantiles equal) or a piecewise-linear
interpolant through a list of breakpoints. -/
inductive NormFn where
  | sub (c : ℚ)
  | interp (pts : List (ℚ × ℚ))
deriving DecidableEq

/-- `scipy.interpolate.interp1d(xs, ys, fill_value="extrapolate")` applied
to a scalar: locate the segment whose right knot is the first one `≥ x`
(falling back to the last segment above the knot range — and the first
segment covers everything below its right knot, so also all of the range
below the first knot) and evaluate that segment's line. -/
def interpEval : List (ℚ × ℚ) → ℚ → ℚ
  | [], _ => 0
  | [a], _ => a.2
  | a :: b :: rest, x =>
    if x ≤ b.1 ∨ rest = [] then
      a.2 + (x - a.1) * (b.2 - a.2) / (b.1 - a.1)
    else
      interpEval (b :: rest) x

/-- Evaluation of a fitted normalizing function (`SubtractFunction.__call__`
or the interp1d call). -/
def NormFn.eval : NormFn → ℚ → ℚ
  | .sub c, x => x - c
  | .interp pts, x => interpEval pts x

/-- `Normalizer.build_single_function` on the flattened observation
array: `None` on empty data; quantiles, merge, then either the
degenerate `SubtractFunction(v_unique[0])` or the piecewise-linear
interpolant through `(v_unique, -1 + 2 * p_unique)`. -/
def build_single_function (B : ℕ) (values : List ℚ) : Option NormFn :=
  if values.isEmpty then none
  else
    let vp := get_quantiles B values
    let m := merge_equal_quantiles vp.1 vp.2
    if m.1.length = 1 then some (.sub (m.1.getD 0 0))
    else some (.interp (m.1.zip (m.2.map (fun q => -1 + 2 * q))))

/-- The probabilities of all breakpoints of `(v, p)` whose quantile value
equals `u` (the bin that `merge_equal_quantiles` averages). -/
def groupProbs (v p : List ℚ) (u : ℚ) : List ℚ :=
  ((v.zip p).filter (fun vp => vp.1 == u)).map Prod.snd

/-- Breakpoint lists produced by the fitting pipeline: knot abscissae
strictly increasing, ordinates nondecreasing. -/
def SortedPts (pts : List (ℚ × ℚ)) : Prop :=
  List.Pairwise (fun a b : ℚ × ℚ => a.1 < b.1 ∧ a.2 ≤ b.2) pts

/-- A nested feature dictionary (object type → feature name → value
array), with dict key order embedded as list order. -/
abbrev FeatDict := List (String × List (String × List ℚ))

/-- `Normalizer.functions`: object type → feature name → normalizing
function or `None`. -/
abbrev FuncTable := List (String × List (String × Option NormFn))

/-- `Normalizer.__call__`: rebuild the nested dictionary; a feature is
transformed when its object type is in the table and its feature key maps
to a non-`None` function, and passed through unchanged otherwise; object
types absent from the table are passed through whole. -/
def normalizer_call (T : FuncTable) (x : FeatDict) : FeatDict :=
  x.map (fun kx =>
    match T.lookup kx.1 with
    | none => kx
    | some Tk => (kx.1, kx.2.map (fun fv =>
        match Tk.lookup fv.1 with
        | some (some fn) => (fv.1, fv.2.map fn.eval)
        | _ => fv)))

/-- Flat encoding of a breakpoint list (part of the pickle model). -/
def encodePts : List (ℚ × ℚ) → List ℚ
  | [] => []
  | ab :: t => ab.1 :: ab.2 :: encodePts t

/-- Inverse of `encodePts`. -/
def decodePts : List ℚ → List (ℚ × ℚ)
  | a :: b :: t => (a, b) :: decodePts t
  | _ => []

/-- The pickle byte stream of one table entry, modelled as a tagged flat
list of rationals: the spec treats the persisted normalizer as an opaque
serialized blob, so only its losslessness matters, not its bytes.  Tag 0 is
`None`, tag 1 a `SubtractFunction`, tag 2 an interp1d breakpoint list. -/
def encodeFn : Option NormFn → List ℚ
  | none => [0]
  | some (.sub c) => [1, c]
  | some (.interp pts) => 2 :: encodePts pts

/-- Deserialization of one table entry from the modelled byte stream. -/
def decodeFn (l : List ℚ) : Option NormFn :=
  match l with
  | [] => none
  | t :: rest =>
    if t = 1 then
      match rest with
      | c :: _ => some (.sub c)
      | [] => none
    else if t = 2 then some (.interp (decodePts rest))
    else none

/-- The serialized function table, entry by entry. -/
abbrev SavedTable := List (String × List (String × List ℚ))

/-- `Normalizer.save`: serialize the whole function table. -/
def normalizer_save (T : FuncTable) : SavedTable :=
  T.map (fun k => (k.1, k.2.map (fun f => (f.1, encodeFn f.2))))

/-- `Normalizer.load`: deserialize a whole function table. -/
def normalizer_load (s : SavedTable) : FuncTable :=
  s.map (fun k => (k.1, k.2.map (fun f => (f.1, decodeFn f.2))))

/-- Python `str.endswith`, on the character sequence. -/
def strEndsWith (f e : String) : Bool := e.data.isSuffixOf f.data

/-- Code-point lexicographic order on character sequences, as Python's
`sorted` compares strings. -/
def charListLe : List Char → List Char → Bool
  | [], _ => true
  | _ :: _, [] => false
  | a :: as, b :: bs =>
    if a.toNat < b.toNat then true
    else if b.toNat < a.toNat then false
    else charListLe as bs

/-- Python string comparison `a <= b` for `sorted(os.listdir(path))`. -/
def strLeb (a b : String) : Bool := charListLe a.data b.data

/-- `AbstractBackend.get_valid_files`: sort the directory listing, keep the
names with a valid extension, fail if none remains, optionally permute
(`np.random.shuffle` embedded as an explicit permutation parameter), then
truncate when a sample count is given. -/
def get_valid_files (listing : List String) (exts : List String)
    (shuffle : Bool) (perm : List String → List String)
    (n_samples : Option ℕ) : Except String (List String) :=
  let files := (List.insertionSort (fun a b => strLeb a b = true) listing).filter
    (fun f => exts.any (fun e => strEndsWith f e))
  if files = [] then .error "There is no valid file"
  else
    let files' := if shuffle then perm files else files
    match n_samples with
    | some n => .ok (files'.take n)
    | none => .ok files'

/-- The (object type, feature, value array) triples of a nested feature
dictionary, in iteration order of the two nested loops. -/
def featPairs (y : FeatDict) : List (String × String × List ℚ) :=
  y.foldr (fun kf acc => kf.2.map (fun fv => (kf.1, fv.1, fv.2)) ++ acc) []

/-- `PandaPowerBackend.set_feature_network`: the two nested loops write
each feature array into the engine's table; a write the engine rejects
(the `ValueError` branch, embedded as the `supported` test on the
(object type, feature) pair) is reported as a warning message and the
loops continue.  The engine's in-place column write is embedded as the
`update` parameter. -/
def set_feature_network {Net : Type} (supported : String → String → Bool)
    (update : Net → String → String → List ℚ → Net)
    (net : Net) (y : FeatDict) : Net × List (String × String) :=
  y.foldl (fun acc kf =>
    kf.2.foldl (fun acc2 fv =>
      if supported kf.1 fv.1 then (update acc2.1 kf.1 fv.1 fv.2, acc2.2)
      else (acc2.1, acc2.2 ++ [(kf.1, fv.1)])) acc) (net, [])

/-- A pandapower network, reduced to the attributes the embedded code
reads: the convergence flag and the two scalar grid attributes. -/
structure PPNet where
  converged : Bool
  f_hz : ℚ
  sn_mva : ℚ

/-- The one solver exception the code catches. -/
inductive PFError where
  | loadflowNotConverged
deriving DecidableEq

/-- `pp.runpp`, modelled from its documented contract: the external solver
(the `solve` parameter) mutates the network — in particular it sets the
`converged` flag — and the call raises `LoadflowNotConverged` exactly when
the run did not converge, leaving the mutated network behind. -/
def pp_runpp (solve : PPNet → PPNet) (net : PPNet) : Except PFError PPNet :=
  let n' := solve net
  if n'.converged then .ok n' else .error .loadflowNotConverged

/-- `PandaPowerBackend.run_network`: call the solver once inside
`try/except LoadflowNotConverged: pass`; in both branches the resulting
state is the solver-mutated network. -/
def run_network (solve : PPNet → PPNet) (net : PPNet) : PPNet :=
  match pp_runpp solve net with
  | .ok n' => n'
  | .error .loadflowNotConverged => solve net

/-- numpy float cast of a Python bool. -/
def boolToFloat (b : Bool) : ℚ := if b then 1 else 0

/-- `pandapower.get_global_features`: read the requested grid-level
attributes, raising `ValueError` on an unknown name. -/
def get_global_features (net : PPNet) : List String →
    Except String (List (String × List ℚ))
  | [] => .ok []
  | n :: rest => do
    let v ←
      if n = "converged" then Except.ok [boolToFloat net.converged]
      else if n = "f_hz" then Except.ok [net.f_hz]
      else if n = "sn_mva" then Except.ok [net.sn_mva]
      else Except.error (n ++ " not an available global feature.")
    let r ← get_global_features net rest
    .ok ((n, v) :: r)

/-- The keyword arguments of `Normalizer.__init__` other than `filename`
(`None` embeds an absent argument). -/
structure Kwargs where
  backend_name : Option String
  data_dir : Option String
  amount_of_samples : Option ℕ
  shuffle : Option Bool
  break_points : Option ℕ
  features : Option (List (String × List String))

/-- The configuration attributes a fitting construction stores. -/
structure NormalizerCfg where
  backend_name : String
  data_dir : Option String
  amount_of_samples : ℕ
  shuffle : Bool
  break_points : ℕ
  features : List (String × List String)
deriving DecidableEq

/-- Modelled from the spec: the `ML4PS.backend` package that
`normalization.py` imports (`get_backend`, the backend's
`valid_features` registry, `check_features`, and the corpus scan that
`build_functions` runs through it) is not under `src/`; it is embedded as
an opaque backend record whose fitting pass maps a configuration to a
function table. -/
structure MBackend where
  valid_features : List (String × List String)
  check_features : List (String × List String) → Except String Unit
  fit_table : NormalizerCfg → Except String FuncTable

/-- The attributes of a constructed `Normalizer`: the function table, and
the fitting configuration when (and only when) a fitting construction ran. -/
structure NormalizerState where
  functions : FuncTable
  cfg : Option NormalizerCfg

/-- `Normalizer.__init__`: with a `filename` the function table is loaded
from the file and nothing else happens; otherwise the keyword arguments
are resolved against their defaults, a backend is selected, the feature
selection is validated and the functions are fitted. -/
def normalizer_init (getBackend : String → Except String MBackend)
    (filename : Option SavedTable) (kw : Kwargs) :
    Except String NormalizerState :=
  match filename with
  | some blob => .ok { functions := normalizer_load blob, cfg := none }
  | none => do
    let bname := kw.backend_name.getD "pypowsybl"
    let backend ← getBackend bname
    let cfg : NormalizerCfg := {
      backend_name := bname
      data_dir := kw.data_dir
      amount_of_samples := kw.amount_of_samples.getD 100
      shuffle := kw.shuffle.getD false
      break_points := kw.break_points.getD 200
      features := kw.features.getD backend.valid_features }
    let _ ← backend.check_features cfg.features
    let fns ← backend.fit_table cfg
    .ok { functions := fns, cfg := some cfg }

end ML4PS

namespace ML4PS

/-- Helper: the inner write loop of `set_feature_network` over one object
type equals a flat fold over its (type, feature, array) triples, with the
rejected pairs appended to the warning list. -/
theorem setFeature_inner_loop {Net : Type} (supported : String → String → Bool)
    (update : Net → String → String → List ℚ → Net) (k : String) :
    ∀ (fs : List (String × List ℚ)) (n : Net) (w : List (String × String)),
      fs.foldl (fun acc2 fv =>
          if supported k fv.1 then (update acc2.1 k fv.1 fv.2, acc2.2)
          else (acc2.1, acc2.2 ++ [(k, fv.1)])) (n, w) =
        ((fs.map (fun fv => (k, fv.1, fv.2))).foldl
            (fun m pr => if supported pr.1 pr.2.1 then update m pr.1 pr.2.1 pr.2.2 else m) n,
         w ++ ((fs.map (fun fv => (k, fv.1, fv.2))).filter
            (fun pr => ! supported pr.1 pr.2.1)).map (fun pr => (pr.1, pr.2.1))) := by
  intro fs
  induction fs with
  | nil => intro n w; simp
  | cons fv t ih =>
    intro n w
    by_cases h : supported k fv.1 <;> simp [h, ih]

/-- Helper: `set_feature_network` equals a flat fold over `featPairs`
paired with the list of rejected (type, feature) pairs. -/
theorem setFeature_flat {Net : Type} (supported : String → String → Bool)
    (update : Net → String → String → List ℚ → Net) :
    ∀ (y : FeatDict) (n : Net) (w : List (String × String)),
      y.foldl (fun acc kf =>
          kf.2.foldl (fun acc2 fv =>
            if supported kf.1 fv.1 then (update acc2.1 kf.1 fv.1 fv.2, acc2.2)
            else (acc2.1, acc2.2 ++ [(kf.1, fv.1)])) acc) (n, w) =
        ((featPairs y).foldl
            (fun m pr => if supported pr.1 pr.2.1 then update m pr.1 pr.2.1 pr.2.2 else m) n,
         w ++ ((featPairs y).filter
            (fun pr => ! supported pr.1 pr.2.1)).map (fun pr => (pr.1, pr.2.1))) := by
  intro y
  induction y with
  | nil => intro n w; simp [featPairs]
  | cons kf t ih =>
    intro n w
    have hstep := setFeature_inner_loop supported update kf.1 kf.2 n w
    have hfp : featPairs (kf :: t) = kf.2.map (fun fv => (kf.1, fv.1, fv.2)) ++ featPairs t := rfl
    simp only [List.foldl_cons, hstep, ih, hfp, List.foldl_append, List.filter_append,
      List.map_append, List.append_assoc]

/-- C8: `set_feature_network` processes every (object type, feature) pair
of the nested dictionary: the supported pairs are written into the
engine's tables in iteration order, each unsupported pair only adds a
warning and the remaining pairs are still processed — the call is total
and never fails on such a pair. -/
theorem set_feature_network_warns_and_continues {Net : Type} :
    ∀ (supported : String → String → Bool)
      (update : Net → String → String → List ℚ → Net) (net : Net) (y : FeatDict),
      set_feature_network supported update net y =
        ((featPairs y).foldl
            (fun m pr => if supported pr.1 pr.2.1 then update m pr.1 pr.2.1 pr.2.2 else m) net,
         ((featPairs y).filter
            (fun pr => ! supported pr.1 pr.2.1)).map (fun pr => (pr.1, pr.2.1))) := by
  intro supported update net y
  have h := setFeature_flat supported update y net []
  simpa [set_feature_network] using h

/-- C9: `run_network` calls the solver exactly once and returns its
mutated network in all cases — a non-converged run raises inside
`pp_runpp` but the exception is swallowed, no retry happens, and the
failure is visible only through the `converged` global feature, which
`get_global_features` then reports as 0. -/
theorem run_network_swallows_nonconvergence :
    ∀ (solve : PPNet → PPNet) (net : PPNet),
      run_network solve net = solve net ∧
      ((solve net).converged = false →
        pp_runpp solve net = Except.error PFError.loadflowNotConverged ∧
        get_global_features (run_network solve net) ["converged"]
          = Except.ok [("converged", [0])]) := by
  intro solve net
  constructor
  · unfold run_network pp_runpp
    by_cases h : (solve net).converged <;> simp [h]
  · intro h
    constructor
    · unfold pp_runpp
      simp [h]
    · unfold run_network pp_runpp
      simp only [h, Bool.false_eq_true, if_false, get_global_features, boolToFloat]
      rfl

/-- Witness for C9 at a concrete diverging solver and network. -/
theorem run_network_swallows_nonconvergence_witness :
    get_global_features
        (run_network (fun n => ⟨false, n.f_hz, n.sn_mva⟩) ⟨true, 50, 1⟩)
        ["converged"]
      = Except.ok [("converged", [0])] :=
  ((run_network_swallows_nonconvergence (fun n => ⟨false, n.f_hz, n.sn_mva⟩)
    ⟨true, 50, 1⟩).2 rfl).2

/-- C10: a `Normalizer(filename=f)` construction deserializes the file
into the function table and consumes nothing else: the result carries no
fitting configuration (no backend selection, no feature validation, no
fitting pass), and it is independent of every other keyword argument and
of the backend registry. -/
theorem normalizer_init_from_file_ignores_kwargs :
    ∀ (g₁ g₂ : String → Except String MBackend) (blob : SavedTable)
      (kw₁ kw₂ : Kwargs),
      normalizer_init g₁ (some blob) kw₁
          = Except.ok ⟨normalizer_load blob, none⟩ ∧
      normalizer_init g₁ (some blob) kw₁ = normalizer_init g₂ (some blob) kw₂ := by
  intro g₁ g₂ blob kw₁ kw₂
  exact ⟨rfl, rfl⟩

/-- Helper: one serialized table entry deserializes to itself. -/
theorem decodeFn_encodeFn : ∀ (f : Option NormFn), decodeFn (encodeFn f) = f := by
  intro f
  match f with
  | none => simp [encodeFn, decodeFn]
  | some (.sub c) => norm_num [encodeFn, decodeFn]
  | some (.interp pts) =>
    have h : ∀ pts : List (ℚ × ℚ), decodePts (encodePts pts) = pts := by
      intro pts
      induction pts with
      | nil => rfl
      | cons ab t ih => simp [encodePts, decodePts, ih]
    norm_num [encodeFn, decodeFn, h]

/-- C6: the save/load pair is lossless on the whole function table —
`load(save(T))` is `T` entry for entry (constant-subtraction functions,
interpolants and absent entries alike), so the reloaded normalizer
produces results identical to `T` on every input dictionary, including
inputs beyond the fitted knot range where `interpEval` extrapolates. -/
theorem save_load_roundtrip :
    ∀ (T : FuncTable) (x : FeatDict),
      normalizer_load (normalizer_save T) = T ∧
      normalizer_call (normalizer_load (normalizer_save T)) x
        = normalizer_call T x := by
  intro T x
  have h : normalizer_load (normalizer_save T) = T := by
    unfold normalizer_load normalizer_save
    rw [List.map_map]
    conv_rhs => rw [← List.map_id T]
    apply List.map_congr_left
    intro kfs _
    have hin : List.map ((fun f => (f.1, decodeFn f.2)) ∘
        fun f : String × Option NormFn => (f.1, encodeFn f.2)) kfs.2 = kfs.2 := by
      conv_rhs => rw [← List.map_id kfs.2]
      apply List.map_congr_left
      intro ff _
      simp [decodeFn_encodeFn]
    simp only [Function.comp_apply, List.map_map, id_eq, hin]
  exact ⟨h, by rw [h]⟩

end ML4PS
namespace ML4PS

/-- C7 counterexample: one valid file but `n_samples = 0` — the returned
sequence is empty yet no not-found error is raised, because the emptiness
check precedes truncation. -/
theorem get_valid_files_empty_truncation_no_error :
    get_valid_files ["a.json"] [".json"] false id (some 0) = Except.ok [] := by
  rfl

/-- C7 (amended): `get_valid_files` returns the sorted valid-extension
entries, optionally permuted, truncated to `n_samples`; it fails with the
not-found error exactly when no valid-extension entry exists — the check
precedes truncation, so an empty truncated result is returned without
error. -/
theorem get_valid_files_checks_before_truncation :
    ∀ (listing exts : List String) (shuffle : Bool)
      (perm : List String → List String) (n_samples : Option ℕ),
      ((List.insertionSort (fun a b => strLeb a b = true) listing).filter
          (fun f => exts.any (fun e => strEndsWith f e)) = [] →
        get_valid_files listing exts shuffle perm n_samples
          = Except.error "There is no valid file") ∧
      (∀ files,
        files = (List.insertionSort (fun a b => strLeb a b = true) listing).filter
          (fun f => exts.any (fun e => strEndsWith f e)) →
        files ≠ [] →
        get_valid_files listing exts shuffle perm n_samples
          = Except.ok (match n_samples with
              | some n => (if shuffle then perm files else files).take n
              | none => if shuffle then perm files else files)) := by
  intro listing exts shuffle perm n_samples
  constructor
  · intro h
    unfold get_valid_files
    simp [h]
  · intro files hf hne
    unfold get_valid_files
    rw [← hf, if_neg hne]
    cases n_samples <;> rfl

/-- Witness for C7's amended theorem: the spec's own batch-scanning
example, listing `b.json, a.json, c.txt` with extension `.json`. -/
theorem get_valid_files_checks_before_truncation_witness :
    get_valid_files ["b.json", "a.json", "c.txt"] [".json"] false id none
      = Except.ok ["a.json", "b.json"] := by
  have h := (get_valid_files_checks_before_truncation
    ["b.json", "a.json", "c.txt"] [".json"] false id none).2
    ["a.json", "b.json"] (by decide) (by decide)
  simpa using h

/-- Helper: looking a key up in an association list mapped by a
key-preserving entry function. -/
theorem lookup_map_keyed {β : Type} (g : String × β → β) (l : List (String × β)) :
    ∀ k : String, (l.map (fun e => (e.1, g e))).lookup k
      = (l.lookup k).map (fun v => g (k, v)) := by
  induction l with
  | nil => intro k; rfl
  | cons e t ih =>
    intro k
    obtain ⟨e1, e2⟩ := e
    by_cases h : k == e1
    · have hk : k = e1 := eq_of_beq h
      subst hk
      simp [List.lookup]
    · simp [List.lookup, h, ih]

end ML4PS
namespace ML4PS

/-- Helper: `normalizer_call` written as a key-preserving entry map. -/
theorem normalizer_call_eq_keyed (T : FuncTable) (x : FeatDict) :
    normalizer_call T x = x.map (fun kx => (kx.1,
      match T.lookup kx.1 with
      | none => kx.2
      | some Tk => kx.2.map (fun fv =>
          match Tk.lookup fv.1 with
          | some (some fn) => (fv.1, fv.2.map fn.eval)
          | _ => fv))) := by
  unfold normalizer_call
  apply List.map_congr_left
  intro kx _
  cases h : T.lookup kx.1 <;> simp [h]

/-- Helper: the per-feature transform written as a key-preserving map. -/
theorem normalizer_call_inner_keyed (Tk : List (String × Option NormFn))
    (fs : List (String × List ℚ)) :
    fs.map (fun fv =>
        match Tk.lookup fv.1 with
        | some (some fn) => (fv.1, fv.2.map fn.eval)
        | _ => fv)
      = fs.map (fun fv => (fv.1,
          match Tk.lookup fv.1 with
          | some (some fn) => fv.2.map fn.eval
          | _ => fv.2)) := by
  apply List.map_congr_left
  intro fv _
  cases h : Tk.lookup fv.1 with
  | none => simp [h]
  | some o => cases o <;> simp [h]

/-- C5: applying a fitted normalizer preserves the key structure of the
input dictionary at both levels; an object type absent from the function
table keeps its entire entry unchanged, and a feature with no fitted
function (key absent from the table's inner dict, or mapped to `None`)
keeps its value array unchanged.  The embedding is a pure value-level
map, so the input dictionary itself is never mutated. -/
theorem normalizer_call_structure_and_pass_through :
    ∀ (T : FuncTable) (x : FeatDict),
      (normalizer_call T x).map Prod.fst = x.map Prod.fst ∧
      (∀ k, ((normalizer_call T x).lookup k).map (fun fs => fs.map Prod.fst)
          = (x.lookup k).map (fun fs => fs.map Prod.fst)) ∧
      (∀ k, T.lookup k = none →
        (normalizer_call T x).lookup k = x.lookup k) ∧
      (∀ k Tk fs f, T.lookup k = some Tk → x.lookup k = some fs →
        (Tk.lookup f = none ∨ Tk.lookup f = some none) →
        ((normalizer_call T x).lookup k).bind (fun gs => gs.lookup f)
          = fs.lookup f) := by
  intro T x
  rw [normalizer_call_eq_keyed]
  refine ⟨?_, ?_, ?_, ?_⟩
  · rw [List.map_map]
    apply List.map_congr_left
    intro kx _
    rfl
  · intro k
    rw [lookup_map_keyed]
    cases hx : x.lookup k with
    | none => rfl
    | some fs =>
      simp only [Option.map_some']
      cases hT : T.lookup k with
      | none => rfl
      | some Tk =>
        simp only
        rw [normalizer_call_inner_keyed, List.map_map]
        congr 1
  · intro k hT
    rw [lookup_map_keyed]
    cases hx : x.lookup k with
    | none => rfl
    | some fs => simp [hT]
  · intro k Tk fs f hT hx hTf
    rw [lookup_map_keyed, hx]
    simp only [Option.map_some', Option.some_bind, hT]
    rw [normalizer_call_inner_keyed, lookup_map_keyed]
    rcases hTf with h | h <;>
      · cases hfv : fs.lookup f with
        | none => rfl
        | some arr => simp [h]

/-- Witness for C5 on a concrete table and dictionary: the object type
`bus` is absent from the table and passes through whole; the feature `q`
is mapped to `None` and its array passes through unchanged. -/
theorem normalizer_call_structure_witness :
    (normalizer_call [("load", [("p_mw", some (.sub 5)), ("q", none)])]
        [("load", [("p_mw", [6]), ("q", [3])]), ("bus", [("vn", [2])])]).lookup "bus"
      = some [("vn", [2])] ∧
    ((normalizer_call [("load", [("p_mw", some (.sub 5)), ("q", none)])]
        [("load", [("p_mw", [6]), ("q", [3])]), ("bus", [("vn", [2])])]).lookup "load").bind
        (fun gs => gs.lookup "q")
      = some [3] := by
  have h := normalizer_call_structure_and_pass_through
    [("load", [("p_mw", some (.sub 5)), ("q", none)])]
    [("load", [("p_mw", [6]), ("q", [3])]), ("bus", [("vn", [2])])]
  refine ⟨?_, ?_⟩
  · have h3 := h.2.2.1 "bus" rfl
    rw [h3]
    rfl
  · have h4 := h.2.2.2 "load" [("p_mw", some (.sub 5)), ("q", none)]
      [("p_mw", [6]), ("q", [3])] "q" rfl rfl (Or.inr rfl)
    rw [h4]
    rfl

end ML4PS

namespace ML4PS

theorem npSort_sorted (l : List ℚ) : (npSort l).Sorted (· ≤ ·) :=
  List.sorted_insertionSort _ l

theorem npSort_perm (l : List ℚ) : List.Perm (npSort l) l :=
  List.perm_insertionSort _ l

theorem sorted_getD_mono {a : List ℚ} (ha : a.Sorted (· ≤ ·)) {i j : ℕ}
    (hij : i ≤ j) (hj : j < a.length) : a.getD i 0 ≤ a.getD j 0 := by
  have hi : i < a.length := lt_of_le_of_lt hij hj
  rw [List.getD_eq_getElem _ _ hi, List.getD_eq_getElem _ _ hj]
  rcases lt_or_eq_of_le hij with h | h
  · exact List.pairwise_iff_getElem.mp ha i j hi hj h
  · subst h; exact le_refl _

theorem npQuantile_mono (values : List ℚ) (hne : values ≠ []) {q q' : ℚ}
    (h0 : 0 ≤ q) (hqq : q ≤ q') (h1 : q' < 1) :
    npQuantile values q ≤ npQuantile values q' := by
  have hsorted := npSort_sorted values
  have hlen : (npSort values).length = values.length := (npSort_perm values).length_eq
  have hpos : 1 ≤ (npSort values).length := by
    rw [hlen]
    exact List.length_pos.mpr hne
  simp only [npQuantile]
  set a := npSort values with ha
  set n := a.length with hn
  rcases Nat.lt_or_ge n 2 with hn1 | hn2
  · -- n = 1 : both sides are a[0]
    have h1n : n = 1 := le_antisymm (Nat.lt_succ_iff.mp hn1) hpos
    rw [h1n]
    norm_num
  · -- n ≥ 2
    have hq0' : (0 : ℚ) ≤ q' := le_trans h0 hqq
    have hq1 : q < 1 := lt_of_le_of_lt hqq h1
    have hcast : (1 : ℚ) ≤ (n : ℚ) - 1 := by
      have h2 : (2 : ℚ) ≤ (n : ℚ) := by exact_mod_cast hn2
      linarith
    set h := q * ((n : ℚ) - 1) with hh
    set h' := q' * ((n : ℚ) - 1) with hh'
    have hh0 : 0 ≤ h := mul_nonneg h0 (by linarith)
    have hh0' : 0 ≤ h' := mul_nonneg hq0' (by linarith)
    have hhh : h ≤ h' := mul_le_mul_of_nonneg_right hqq (by linarith)
    have htop : h' < (n : ℚ) - 1 := by
      calc h' = q' * ((n : ℚ) - 1) := rfl
      _ < 1 * ((n : ℚ) - 1) := by
        apply mul_lt_mul_of_pos_right h1
        linarith
      _ = (n : ℚ) - 1 := one_mul _
    have htop' : h < (n : ℚ) - 1 := lt_of_le_of_lt hhh htop
    set i := (⌊h⌋).toNat with hi
    set i' := (⌊h'⌋).toNat with hi'
    have hfl0 : (0 : ℤ) ≤ ⌊h⌋ := Int.floor_nonneg.mpr hh0
    have hfl0' : (0 : ℤ) ≤ ⌊h'⌋ := Int.floor_nonneg.mpr hh0'
    have hicast : ((i : ℚ)) = ((⌊h⌋ : ℤ) : ℚ) := by
      rw [hi]
      exact_mod_cast congrArg (fun z : ℤ => (z : ℚ)) (Int.toNat_of_nonneg hfl0)
    have hicast' : ((i' : ℚ)) = ((⌊h'⌋ : ℤ) : ℚ) := by
      rw [hi']
      exact_mod_cast congrArg (fun z : ℤ => (z : ℚ)) (Int.toNat_of_nonneg hfl0')
    have hile : (i : ℚ) ≤ h := by rw [hicast]; exact Int.floor_le h
    have hile' : (i' : ℚ) ≤ h' := by rw [hicast']; exact Int.floor_le h'
    have higt : h < (i : ℚ) + 1 := by rw [hicast]; exact_mod_cast Int.lt_floor_add_one h
    have hii' : i ≤ i' := by
      rw [hi, hi']
      exact Int.toNat_le_toNat (Int.floor_le_floor hhh)
    have hzf : ⌊h⌋ < (n : ℤ) - 1 := by
      apply Int.floor_lt.mpr
      push_cast
      exact htop'
    have hzf' : ⌊h'⌋ < (n : ℤ) - 1 := by
      apply Int.floor_lt.mpr
      push_cast
      exact htop
    have hbound : i + 1 ≤ n - 1 := by omega
    have hbound' : i' + 1 ≤ n - 1 := by omega
    rw [min_eq_left hbound, min_eq_left hbound']
    have hlt_n : i + 1 < n := by omega
    have hlt_n' : i' + 1 < n := by omega
    have hai : a.getD i 0 ≤ a.getD (i + 1) 0 :=
      sorted_getD_mono hsorted (Nat.le_succ i) hlt_n
    have hbi : a.getD i' 0 ≤ a.getD (i' + 1) 0 :=
      sorted_getD_mono hsorted (Nat.le_succ i') hlt_n'
    rcases eq_or_lt_of_le hii' with heq | hlt
    · rw [← heq]
      have hdiff : 0 ≤ (h' - h) * (a.getD (i + 1) 0 - a.getD i 0) :=
        mul_nonneg (by linarith) (by linarith)
      nlinarith [hdiff]
    · have step1 : a.getD i 0 + (h - (i : ℚ)) * (a.getD (i + 1) 0 - a.getD i 0)
          ≤ a.getD (i + 1) 0 := by
        have hfac : 0 ≤ (1 - (h - (i : ℚ))) * (a.getD (i + 1) 0 - a.getD i 0) :=
          mul_nonneg (by linarith) (by linarith)
        nlinarith [hfac]
      have step2 : a.getD (i + 1) 0 ≤ a.getD i' 0 :=
        sorted_getD_mono hsorted hlt (by omega)
      have step3 : a.getD i' 0
          ≤ a.getD i' 0 + (h' - (i' : ℚ)) * (a.getD (i' + 1) 0 - a.getD i' 0) := by
        have hfac : 0 ≤ (h' - (i' : ℚ)) * (a.getD (i' + 1) 0 - a.getD i' 0) :=
          mul_nonneg (by linarith) (by linarith)
        linarith
      linarith


theorem foldl_addAt_length (vu : List ℚ) :
    ∀ (l : List (ℚ × ℚ)) (acc : List ℚ),
      (l.foldl (fun acc vp => addAt acc (vu.indexOf vp.1) vp.2) acc).length
        = acc.length := by
  intro l
  induction l with
  | nil => intro acc; rfl
  | cons e t ih =>
    intro acc
    rw [List.foldl_cons, ih]
    simp [addAt]

theorem foldl_addAt_getD (vu : List ℚ) :
    ∀ (l : List (ℚ × ℚ)) (acc : List ℚ) (j : ℕ), j < acc.length →
      (l.foldl (fun acc vp => addAt acc (vu.indexOf vp.1) vp.2) acc).getD j 0
        = acc.getD j 0
          + ((l.filter (fun vp => vu.indexOf vp.1 == j)).map Prod.snd).sum := by
  intro l
  induction l with
  | nil => intro acc j hj; simp
  | cons e t ih =>
    intro acc j hj
    rw [List.foldl_cons]
    have hlen : (addAt acc (vu.indexOf e.1) e.2).length = acc.length := by
      simp [addAt]
    rw [ih _ j (by rw [hlen]; exact hj)]
    by_cases hidx : vu.indexOf e.1 = j
    · have hstep : (addAt acc (vu.indexOf e.1) e.2).getD j 0
          = acc.getD j 0 + e.2 := by
        rw [hidx, addAt, List.getD_eq_getElem _ _ (by simpa using hj)]
        exact List.getElem_set_self _
      have hfil : (e :: t).filter (fun vp => vu.indexOf vp.1 == j)
          = e :: t.filter (fun vp => vu.indexOf vp.1 == j) := by
        simp [List.filter_cons, hidx]
      rw [hstep, hfil]
      simp
      ring
    · have hstep : (addAt acc (vu.indexOf e.1) e.2).getD j 0 = acc.getD j 0 := by
        rw [addAt, List.getD_eq_getElem _ _ (by simpa using hj),
          List.getD_eq_getElem _ _ hj]
        exact List.getElem_set_ne hidx _
      have hfil : (e :: t).filter (fun vp => vu.indexOf vp.1 == j)
          = t.filter (fun vp => vu.indexOf vp.1 == j) := by
        simp [List.filter_cons, hidx]
      rw [hstep, hfil]


theorem npUnique_sorted (v : List ℚ) : (npUnique v).Sorted (· ≤ ·) :=
  (npSort_sorted v).sublist (List.dedup_sublist _)

theorem npUnique_nodup (v : List ℚ) : (npUnique v).Nodup :=
  List.nodup_dedup _

theorem mem_npUnique {v : List ℚ} {a : ℚ} : a ∈ npUnique v ↔ a ∈ v :=
  List.mem_dedup.trans (npSort_perm v).mem_iff

theorem npUnique_pairwise_lt (v : List ℚ) : (npUnique v).Pairwise (· < ·) :=
  ((npUnique_sorted v).and (npUnique_nodup v)).imp
    (fun h => lt_of_le_of_ne h.1 h.2)

theorem indexOf_eq_iff {vu : List ℚ} (hnd : vu.Nodup) {x : ℚ} (hx : x ∈ vu)
    {j : ℕ} (hj : j < vu.length) :
    vu.indexOf x = j ↔ x = vu.getD j 0 := by
  rw [List.getD_eq_getElem _ _ hj]
  constructor
  · rintro rfl
    exact (List.getElem_indexOf (List.indexOf_lt_length.mpr hx)).symm
  · rintro rfl
    have h1 : vu.indexOf vu[j] < vu.length :=
      List.indexOf_lt_length.mpr (List.getElem_mem hj)
    have h2 : vu[vu.indexOf vu[j]] = vu[j] := List.getElem_indexOf h1
    exact (List.Nodup.getElem_inj_iff hnd).mp h2

theorem groupProbs_length (v : List ℚ) :
    ∀ (p : List ℚ), v.length = p.length → ∀ (u : ℚ),
      (groupProbs v p u).length = v.count u := by
  unfold groupProbs
  induction v with
  | nil => intro p hlen u; simp
  | cons a v' ih =>
    intro p hlen u
    cases p with
    | nil => simp at hlen
    | cons b p' =>
      have hlen' : v'.length = p'.length := by simpa using hlen
      by_cases hau : a = u
      · simp [List.zip_cons_cons, List.filter_cons, hau, List.count_cons,
          ← ih p' hlen' u]
      · simp [List.zip_cons_cons, List.filter_cons, hau, List.count_cons,
          ← ih p' hlen' u]

theorem merge_fst (v p : List ℚ) : (merge_equal_quantiles v p).1 = npUnique v := rfl

theorem merge_snd_length (v p : List ℚ) :
    (merge_equal_quantiles v p).2.length = (npUnique v).length := by
  unfold merge_equal_quantiles
  simp [foldl_addAt_length]

theorem merge_pu_getD (v p : List ℚ)
    {j : ℕ} (hj : j < (npUnique v).length) :
    (merge_equal_quantiles v p).2.getD j 0
      = (groupProbs v p ((npUnique v).getD j 0)).sum
        / ((v.count ((npUnique v).getD j 0) : ℕ) : ℚ) := by
  unfold merge_equal_quantiles
  simp only
  set vu := npUnique v with hvu
  set u := vu.getD j 0 with hu
  set sums := (v.zip p).foldl
    (fun acc vp => addAt acc (vu.indexOf vp.1) vp.2)
    (vu.map (fun _ => (0 : ℚ))) with hsums
  have hsl : sums.length = vu.length := by
    rw [hsums, foldl_addAt_length, List.length_map]
  have hjz : j < (sums.zip (vu.map (fun u => v.count u))).length := by
    simp [List.length_zip, hsl]
    omega
  rw [List.getD_eq_getElem _ _ (by simpa using hjz), List.getElem_map,
    List.getElem_zip]
  have hjs : j < sums.length := by omega
  have hsum : sums[j] = (groupProbs v p u).sum := by
    have h0 : sums.getD j 0 = 0
        + (((v.zip p).filter (fun vp => vu.indexOf vp.1 == j)).map Prod.snd).sum := by
      rw [hsums]
      rw [foldl_addAt_getD vu (v.zip p) _ j (by simp; omega)]
      congr 1
      rw [List.getD_eq_getElem _ _ (by simp; omega), List.getElem_map]
    have hfil : (v.zip p).filter (fun vp => vu.indexOf vp.1 == j)
        = (v.zip p).filter (fun vp => vp.1 == u) := by
      apply List.filter_congr
      intro vp hvp
      obtain ⟨x, y⟩ := vp
      have hxv : x ∈ v := (List.of_mem_zip hvp).1
      have hxvu : x ∈ vu := mem_npUnique.mpr hxv
      apply Bool.coe_iff_coe.mp
      simp only [beq_iff_eq]
      exact indexOf_eq_iff (npUnique_nodup v) hxvu hj
    rw [List.getD_eq_getElem _ _ (by omega)] at h0
    rw [h0, hfil, zero_add]
    rfl
  have hjc : j < (vu.map (fun u => v.count u)).length := by
    simp
    omega
  have hcnt : (vu.map (fun u => v.count u))[j] = v.count u := by
    rw [List.getElem_map]
    congr 1
    rw [hu, List.getD_eq_getElem _ _ hj]
  rw [hsum, hcnt]


theorem mean_le_of_all_le {A : List ℚ} (hA : A ≠ []) {c : ℚ}
    (h : ∀ a ∈ A, a ≤ c) : A.sum / (A.length : ℚ) ≤ c := by
  have hlen : (0 : ℚ) < (A.length : ℚ) := by
    have := List.length_pos.mpr hA
    exact_mod_cast this
  rw [div_le_iff₀ hlen]
  have hs := List.sum_le_card_nsmul A c h
  rw [nsmul_eq_mul] at hs
  linarith

theorem le_mean_of_all_ge {A : List ℚ} (hA : A ≠ []) {c : ℚ}
    (h : ∀ a ∈ A, c ≤ a) : c ≤ A.sum / (A.length : ℚ) := by
  have hlen : (0 : ℚ) < (A.length : ℚ) := by
    have := List.length_pos.mpr hA
    exact_mod_cast this
  rw [le_div_iff₀ hlen]
  have hs := List.card_nsmul_le_sum A c h
  rw [nsmul_eq_mul] at hs
  linarith

theorem mean_le_mean {A B : List ℚ} (hA : A ≠ []) (hB : B ≠ [])
    (h : ∀ a ∈ A, ∀ b ∈ B, a ≤ b) :
    A.sum / (A.length : ℚ) ≤ B.sum / (B.length : ℚ) := by
  apply mean_le_of_all_le hA
  intro a ha
  exact le_mean_of_all_ge hB (h a ha)

theorem mem_groupProbs {v p : List ℚ} {u b : ℚ} (hb : b ∈ groupProbs v p u) :
    ∃ i, ∃ hi : i < v.length, ∃ hip : i < p.length, v[i] = u ∧ p[i] = b := by
  unfold groupProbs at hb
  obtain ⟨⟨x, y⟩, hmem, hxy⟩ := List.mem_map.mp hb
  have hfil := List.mem_filter.mp hmem
  have hx : x = u := by simpa using hfil.2
  have hzip := hfil.1
  obtain ⟨i, hi, hgi⟩ := List.mem_iff_getElem.mp hzip
  obtain ⟨hlv, hlp⟩ : i < v.length ∧ i < p.length := by
    have hz := hi
    rw [List.length_zip] at hz
    omega
  rw [List.getElem_zip] at hgi
  have h1 : v[i] = x := congrArg Prod.fst hgi
  have h2 : p[i] = y := congrArg Prod.snd hgi
  refine ⟨i, hlv, hlp, ?_, ?_⟩
  · rw [h1, hx]
  · rw [h2]
    exact hxy

theorem groupProbs_subset_p {v p : List ℚ} {u b : ℚ} (hb : b ∈ groupProbs v p u) :
    b ∈ p := by
  obtain ⟨i, hi, hip, _, hpb⟩ := mem_groupProbs hb
  rw [← hpb]
  exact List.getElem_mem hip

theorem groupProbs_ne_nil {v p : List ℚ} (hlen : v.length = p.length) {u : ℚ}
    (hu : u ∈ v) : groupProbs v p u ≠ [] := by
  have hl : (groupProbs v p u).length = v.count u := groupProbs_length v p hlen u
  have hc : 0 < v.count u := List.count_pos_iff.mpr hu
  intro hnil
  rw [hnil] at hl
  simp at hl
  omega

theorem groupProbs_cross {v p : List ℚ} (hv : v.Pairwise (· ≤ ·))
    (hp : p.Pairwise (· < ·)) {u u' : ℚ} (huu : u < u') :
    ∀ a ∈ groupProbs v p u, ∀ b ∈ groupProbs v p u', a ≤ b := by
  intro a ha b hb
  obtain ⟨i, hiv, hip, hvi, hpi⟩ := mem_groupProbs ha
  obtain ⟨i', hiv', hip', hvi', hpi'⟩ := mem_groupProbs hb
  have hii : i < i' := by
    by_contra hcon
    push_neg at hcon
    rcases lt_or_eq_of_le hcon with hlt | heq
    · have := List.pairwise_iff_getElem.mp hv i' i hiv' hiv hlt
      rw [hvi, hvi'] at this
      exact absurd huu (not_lt.mpr this)
    · subst heq
      exact absurd (hvi.symm.trans hvi') (ne_of_lt huu)
  have := List.pairwise_iff_getElem.mp hp i i' hip hip' hii
  rw [hpi, hpi'] at this
  exact le_of_lt this

theorem merge_pu_le (v p : List ℚ) (hlen : v.length = p.length)
    (hv : v.Pairwise (· ≤ ·)) (hp : p.Pairwise (· < ·)) {j k : ℕ}
    (hjk : j < k) (hk : k < (npUnique v).length) :
    (merge_equal_quantiles v p).2.getD j 0
      ≤ (merge_equal_quantiles v p).2.getD k 0 := by
  have hj : j < (npUnique v).length := lt_trans hjk hk
  rw [merge_pu_getD v p hj, merge_pu_getD v p hk]
  set u := (npUnique v).getD j 0 with hu
  set u' := (npUnique v).getD k 0 with hu'
  have huu : u < u' := by
    rw [hu, hu', List.getD_eq_getElem _ _ hj, List.getD_eq_getElem _ _ hk]
    exact List.pairwise_iff_getElem.mp (npUnique_pairwise_lt v) j k hj hk hjk
  have humem : u ∈ v := by
    rw [hu, List.getD_eq_getElem _ _ hj]
    exact mem_npUnique.mp (List.getElem_mem hj)
  have humem' : u' ∈ v := by
    rw [hu', List.getD_eq_getElem _ _ hk]
    exact mem_npUnique.mp (List.getElem_mem hk)
  rw [← groupProbs_length v p hlen u, ← groupProbs_length v p hlen u']
  exact mean_le_mean (groupProbs_ne_nil hlen humem) (groupProbs_ne_nil hlen humem')
    (groupProbs_cross hv hp huu)


theorem interpEval_line_at_right {a b : ℚ × ℚ} (hab : a.1 < b.1) :
    a.2 + (b.1 - a.1) * (b.2 - a.2) / (b.1 - a.1) = b.2 := by
  rw [mul_div_assoc, mul_div_assoc']
  rw [mul_comm, mul_div_assoc, div_self (by linarith : b.1 - a.1 ≠ 0)]
  ring

theorem interpEval_ge_head :
    ∀ (rest : List (ℚ × ℚ)) (a : ℚ × ℚ) (x : ℚ), SortedPts (a :: rest) →
      a.1 ≤ x → a.2 ≤ interpEval (a :: rest) x := by
  intro rest
  induction rest with
  | nil => intro a x _ _; exact le_refl _
  | cons b rest' ih =>
    intro a x hs hax
    have hab : a.1 < b.1 ∧ a.2 ≤ b.2 :=
      (List.pairwise_cons.mp hs).1 b (List.mem_cons_self b rest')
    by_cases hcond : x ≤ b.1 ∨ rest' = []
    · rw [interpEval, if_pos hcond]
      have hnn : 0 ≤ (x - a.1) * (b.2 - a.2) / (b.1 - a.1) :=
        div_nonneg (mul_nonneg (by linarith) (by linarith)) (by linarith)
      linarith
    · rw [interpEval, if_neg hcond]
      push_neg at hcond
      have hbx : b.1 ≤ x := le_of_lt hcond.1
      have htail : SortedPts (b :: rest') := (List.pairwise_cons.mp hs).2
      exact le_trans hab.2 (ih b x htail hbx)

theorem interpEval_mono :
    ∀ (pts : List (ℚ × ℚ)), SortedPts pts → ∀ (x x' : ℚ), x ≤ x' →
      interpEval pts x ≤ interpEval pts x' := by
  intro pts
  induction pts with
  | nil => intro _ x x' _; exact le_refl _
  | cons a tail ih =>
    intro hs x x' hxx
    cases tail with
    | nil => exact le_refl _
    | cons b rest =>
      have hab : a.1 < b.1 ∧ a.2 ≤ b.2 :=
        (List.pairwise_cons.mp hs).1 b (List.mem_cons_self b rest)
      have hslope : ∀ z z' : ℚ, z ≤ z' →
          a.2 + (z - a.1) * (b.2 - a.2) / (b.1 - a.1)
            ≤ a.2 + (z' - a.1) * (b.2 - a.2) / (b.1 - a.1) := by
        intro z z' hzz
        have h1 : 0 ≤ (z' - z) * (b.2 - a.2) / (b.1 - a.1) :=
          div_nonneg (mul_nonneg (by linarith) (by linarith)) (by linarith)
        have h2 : (z' - a.1) * (b.2 - a.2) / (b.1 - a.1)
            = (z - a.1) * (b.2 - a.2) / (b.1 - a.1)
              + (z' - z) * (b.2 - a.2) / (b.1 - a.1) := by
          field_simp
          ring
        linarith [h2]
      by_cases hrest : rest = []
      · subst hrest
        rw [interpEval, if_pos (Or.inr rfl), interpEval, if_pos (Or.inr rfl)]
        exact hslope x x' hxx
      · by_cases hx : x ≤ b.1
        · by_cases hx' : x' ≤ b.1
          · rw [interpEval, if_pos (Or.inl hx), interpEval, if_pos (Or.inl hx')]
            exact hslope x x' hxx
          · push_neg at hx'
            rw [interpEval, if_pos (Or.inl hx), interpEval,
              if_neg (by push_neg; exact ⟨hx', hrest⟩)]
            have step1 : a.2 + (x - a.1) * (b.2 - a.2) / (b.1 - a.1)
                ≤ a.2 + (b.1 - a.1) * (b.2 - a.2) / (b.1 - a.1) := hslope x b.1 hx
            have step2 : a.2 + (b.1 - a.1) * (b.2 - a.2) / (b.1 - a.1) = b.2 :=
              interpEval_line_at_right hab.1
            have htail : SortedPts (b :: rest) := (List.pairwise_cons.mp hs).2
            have step3 : b.2 ≤ interpEval (b :: rest) x' :=
              interpEval_ge_head rest b x' htail (le_of_lt hx')
            linarith
        · push_neg at hx
          have hx' : b.1 < x' := lt_of_lt_of_le hx hxx
          rw [interpEval, if_neg (by push_neg; exact ⟨hx, hrest⟩), interpEval,
            if_neg (by push_neg; exact ⟨hx', hrest⟩)]
          exact ih (List.pairwise_cons.mp hs).2 x x' hxx

theorem interpEval_knot :
    ∀ (pts : List (ℚ × ℚ)), SortedPts pts → ∀ ab ∈ pts,
      interpEval pts ab.1 = ab.2 := by
  intro pts
  induction pts with
  | nil => intro _ ab hab; exact absurd hab (List.not_mem_nil ab)
  | cons a tail ih =>
    intro hs ab hab
    cases tail with
    | nil =>
      rcases List.mem_singleton.mp hab with rfl
      rfl
    | cons b rest =>
      have hab' : a.1 < b.1 ∧ a.2 ≤ b.2 :=
        (List.pairwise_cons.mp hs).1 b (List.mem_cons_self b rest)
      have htail : SortedPts (b :: rest) := (List.pairwise_cons.mp hs).2
      rcases List.mem_cons.mp hab with rfl | hmem
      · rw [interpEval, if_pos (Or.inl (le_of_lt hab'.1))]
        ring
      · rcases List.mem_cons.mp hmem with rfl | hmem'
        · rw [interpEval, if_pos (Or.inl (le_refl _))]
          exact interpEval_line_at_right hab'.1
        · have hlt : b.1 < ab.1 :=
            ((List.pairwise_cons.mp htail).1 ab hmem').1
          have hne : rest ≠ [] := by
            intro hc
            rw [hc] at hmem'
            exact absurd hmem' (List.not_mem_nil ab)
          rw [interpEval, if_neg (by push_neg; exact ⟨hlt, hne⟩)]
          exact ih htail ab hmem

theorem interpEval_low {a b : ℚ × ℚ} {rest : List (ℚ × ℚ)} {x : ℚ}
    (hs : SortedPts (a :: b :: rest)) (hx : x ≤ a.1) :
    interpEval (a :: b :: rest) x
      = a.2 + (x - a.1) * (b.2 - a.2) / (b.1 - a.1) := by
  have hab : a.1 < b.1 ∧ a.2 ≤ b.2 :=
    (List.pairwise_cons.mp hs).1 b (List.mem_cons_self b rest)
  rw [interpEval, if_pos (Or.inl (by linarith [hab.1]))]

theorem interpEval_high :
    ∀ (pts : List (ℚ × ℚ)), SortedPts pts → 2 ≤ pts.length → ∀ x : ℚ,
      (pts.getD (pts.length - 1) (0, 0)).1 ≤ x →
      interpEval pts x
        = (pts.getD (pts.length - 2) (0, 0)).2
          + (x - (pts.getD (pts.length - 2) (0, 0)).1)
            * ((pts.getD (pts.length - 1) (0, 0)).2
                - (pts.getD (pts.length - 2) (0, 0)).2)
            / ((pts.getD (pts.length - 1) (0, 0)).1
                - (pts.getD (pts.length - 2) (0, 0)).1) := by
  intro pts
  induction pts with
  | nil => intro _ h2 _ _; simp at h2
  | cons a tail ih =>
    intro hs h2 x hx
    cases tail with
    | nil => simp at h2
    | cons b rest =>
      cases rest with
      | nil =>
        simp only [List.length_cons, List.length_nil] at *
        rw [interpEval, if_pos (Or.inr rfl)]
        rfl
      | cons c rest' =>
        have htail : SortedPts (b :: c :: rest') := (List.pairwise_cons.mp hs).2
        have hlen : (a :: b :: c :: rest').length - 1
            = (b :: c :: rest').length - 1 + 1 := by
          simp [List.length_cons]
        have hlen2 : (a :: b :: c :: rest').length - 2
            = (b :: c :: rest').length - 2 + 1 := by
          simp [List.length_cons]
        have hshift1 : (a :: b :: c :: rest').getD ((a :: b :: c :: rest').length - 1) (0, 0)
            = (b :: c :: rest').getD ((b :: c :: rest').length - 1) (0, 0) := by
          rw [hlen, List.getD_cons_succ]
        have hshift2 : (a :: b :: c :: rest').getD ((a :: b :: c :: rest').length - 2) (0, 0)
            = (b :: c :: rest').getD ((b :: c :: rest').length - 2) (0, 0) := by
          rw [hlen2, List.getD_cons_succ]
        rw [hshift1, hshift2]
        rw [hshift1] at hx
        -- the last knot is beyond b, so the first segment is not used
        have hlast_mem : (b :: c :: rest').getD ((b :: c :: rest').length - 1) (0, 0)
            ∈ c :: rest' := by
          have hidx : (b :: c :: rest').length - 1 = ((c :: rest').length - 1) + 1 := by
            simp [List.length_cons]
          have hb : (c :: rest').length - 1 < (c :: rest').length := by
            simp [List.length_cons]
          rw [hidx, List.getD_cons_succ, List.getD_eq_getElem _ _ hb]
          exact List.getElem_mem hb
        have hblt : b.1 < x := by
          have h1 : b.1 < ((b :: c :: rest').getD ((b :: c :: rest').length - 1) (0, 0)).1 :=
            ((List.pairwise_cons.mp htail).1 _ hlast_mem).1
          linarith
        rw [interpEval, if_neg (by push_neg; exact ⟨hblt, by simp⟩)]
        exact ih htail (by simp) x hx


end ML4PS

namespace ML4PS

theorem get_quantiles_p_length (B : ℕ) (values : List ℚ) :
    (get_quantiles B values).2.length = B := by
  simp [get_quantiles]

theorem get_quantiles_v_length (B : ℕ) (values : List ℚ) :
    (get_quantiles B values).1.length = B := by
  simp [get_quantiles]

theorem get_quantiles_len_eq (B : ℕ) (values : List ℚ) :
    (get_quantiles B values).1.length = (get_quantiles B values).2.length := by
  simp [get_quantiles]

theorem get_quantiles_p_getD (B : ℕ) (values : List ℚ) {i : ℕ} (hi : i < B) :
    (get_quantiles B values).2.getD i 0 = (i : ℚ) / (B : ℚ) := by
  unfold get_quantiles
  simp only
  rw [List.getD_eq_getElem _ _ (by simpa using hi), List.getElem_map,
    List.getElem_range]

theorem get_quantiles_p_mem (B : ℕ) (values : List ℚ) (hB : 1 ≤ B) :
    ∀ x ∈ (get_quantiles B values).2, 0 ≤ x ∧ x < 1 := by
  intro x hx
  unfold get_quantiles at hx
  simp only [List.mem_map, List.mem_range] at hx
  obtain ⟨i, hi, rfl⟩ := hx
  have hBpos : (0 : ℚ) < (B : ℚ) := by exact_mod_cast hB
  constructor
  · positivity
  · rw [div_lt_one hBpos]
    exact_mod_cast hi

theorem get_quantiles_p_pairwise (B : ℕ) (values : List ℚ) (hB : 1 ≤ B) :
    (get_quantiles B values).2.Pairwise (· < ·) := by
  unfold get_quantiles
  simp only
  rw [List.pairwise_map]
  have hBpos : (0 : ℚ) < (B : ℚ) := by exact_mod_cast hB
  exact (List.pairwise_lt_range B).imp
    (fun hij => div_lt_div_of_pos_right (by exact_mod_cast hij) hBpos)

theorem get_quantiles_v_pairwise (B : ℕ) (values : List ℚ) (hne : values ≠ [])
    (hB : 1 ≤ B) : (get_quantiles B values).1.Pairwise (· ≤ ·) := by
  have hp := get_quantiles_p_pairwise B values hB
  have hmem := get_quantiles_p_mem B values hB
  unfold get_quantiles at *
  simp only at *
  rw [List.pairwise_map]
  apply List.Pairwise.imp_of_mem ?_ hp
  intro a b ha hb hab
  exact npQuantile_mono values hne (hmem a ha).1 (le_of_lt hab) (hmem b hb).2

theorem npQuantile_const {values : List ℚ} {c : ℚ} (hne : values ≠ [])
    (hall : ∀ x ∈ values, x = c) {q : ℚ} (h0 : 0 ≤ q) (h1 : q < 1) :
    npQuantile values q = c := by
  have hsortall : ∀ x ∈ npSort values, x = c := by
    intro x hx
    exact hall x ((npSort_perm values).mem_iff.mp hx)
  have hlen : (npSort values).length = values.length := (npSort_perm values).length_eq
  have hpos : 1 ≤ (npSort values).length := by
    rw [hlen]
    exact List.length_pos.mpr hne
  simp only [npQuantile]
  set a := npSort values with ha
  set n := a.length with hn
  set h := q * ((n : ℚ) - 1) with hh
  have hh0 : 0 ≤ h := by
    apply mul_nonneg h0
    have h1n : (1 : ℚ) ≤ (n : ℚ) := by exact_mod_cast hpos
    linarith
  set i := (⌊h⌋).toNat with hi
  have hin : i < n := by
    rcases Nat.lt_or_ge n 2 with h2 | h2
    · have hn1 : n = 1 := le_antisymm (Nat.lt_succ_iff.mp h2) hpos
      have hzero : h = 0 := by
        rw [hh, hn1]
        push_cast
        ring
      rw [hi, hzero]
      simp [hn1]
    · have htop : h < (n : ℚ) - 1 := by
        rw [hh]
        calc q * ((n : ℚ) - 1) < 1 * ((n : ℚ) - 1) := by
              apply mul_lt_mul_of_pos_right h1
              have h2q : (2 : ℚ) ≤ (n : ℚ) := by exact_mod_cast h2
              linarith
        _ = (n : ℚ) - 1 := one_mul _
      have hzf : ⌊h⌋ < (n : ℤ) - 1 := Int.floor_lt.mpr (by push_cast; exact htop)
      have hfl0 : (0 : ℤ) ≤ ⌊h⌋ := Int.floor_nonneg.mpr hh0
      omega
  have hminlt : min (i + 1) (n - 1) < n := by omega
  have hlo : a.getD i 0 = c := by
    rw [List.getD_eq_getElem _ _ hin]
    exact hsortall _ (List.getElem_mem hin)
  have hhi : a.getD (min (i + 1) (n - 1)) 0 = c := by
    rw [List.getD_eq_getElem _ _ hminlt]
    exact hsortall _ (List.getElem_mem hminlt)
  rw [hlo, hhi]
  ring

theorem dedup_const {c : ℚ} :
    ∀ (l : List ℚ), l ≠ [] → (∀ x ∈ l, x = c) → l.dedup = [c] := by
  intro l
  induction l with
  | nil => intro h _; exact absurd rfl h
  | cons a t ih =>
    intro _ hall
    have hac : a = c := hall a (List.mem_cons_self a t)
    cases t with
    | nil => simp [hac]
    | cons b t' =>
      have hbc : b = c := hall b (by simp)
      have hmem : a ∈ b :: t' := by
        rw [hac, hbc]
        exact List.mem_cons_self c t'
      rw [List.dedup_cons_of_mem hmem]
      exact ih (by simp) (fun x hx => hall x (List.mem_cons_of_mem a hx))

theorem npUnique_const {v : List ℚ} {c : ℚ} (hne : v ≠ [])
    (hall : ∀ x ∈ v, x = c) : npUnique v = [c] := by
  unfold npUnique
  apply dedup_const
  · intro h
    have hl := (npSort_perm v).length_eq
    rw [h] at hl
    simp at hl
    exact hne (List.length_eq_zero.mp hl.symm)
  · intro x hx
    exact hall x ((npSort_perm v).mem_iff.mp hx)

theorem get_quantiles_v_const (B : ℕ) (values : List ℚ) (c : ℚ)
    (hne : values ≠ []) (hall : ∀ x ∈ values, x = c) (hB : 1 ≤ B) :
    ∀ x ∈ (get_quantiles B values).1, x = c := by
  intro x hx
  unfold get_quantiles at hx
  simp only [List.mem_map] at hx
  obtain ⟨q, hq, rfl⟩ := hx
  have hb := get_quantiles_p_mem B values hB q
    (by unfold get_quantiles; simpa using hq)
  exact npQuantile_const hne hall hb.1 hb.2

theorem pairwise_zip {α β : Type} {R : α → α → Prop} {S : β → β → Prop} :
    ∀ (l₁ : List α) (l₂ : List β), l₁.Pairwise R → l₂.Pairwise S →
      (l₁.zip l₂).Pairwise (fun a b => R a.1 b.1 ∧ S a.2 b.2) := by
  intro l₁
  induction l₁ with
  | nil => intro l₂ _ _; simp
  | cons a t ih =>
    intro l₂ h₁ h₂
    cases l₂ with
    | nil => simp
    | cons b t₂ =>
      rw [List.zip_cons_cons]
      apply List.pairwise_cons.mpr
      constructor
      · intro xy hxy
        obtain ⟨x, y⟩ := xy
        have hx := (List.of_mem_zip hxy).1
        have hy := (List.of_mem_zip hxy).2
        exact ⟨(List.pairwise_cons.mp h₁).1 x hx, (List.pairwise_cons.mp h₂).1 y hy⟩
      · exact ih t₂ (List.pairwise_cons.mp h₁).2 (List.pairwise_cons.mp h₂).2

theorem merge_pu_pairwise (v p : List ℚ) (hlen : v.length = p.length)
    (hv : v.Pairwise (· ≤ ·)) (hp : p.Pairwise (· < ·)) :
    (merge_equal_quantiles v p).2.Pairwise (· ≤ ·) := by
  apply List.pairwise_iff_getElem.mpr
  intro j k hj hk hjk
  have hk' : k < (npUnique v).length := by
    have hml := merge_snd_length v p
    omega
  have hle := merge_pu_le v p hlen hv hp hjk hk'
  rw [List.getD_eq_getElem _ _ hj, List.getD_eq_getElem _ _ hk] at hle
  exact hle

theorem merge_pu_bounds (v p : List ℚ) (hlen : v.length = p.length)
    (hpb : ∀ x ∈ p, 0 ≤ x ∧ x < 1) {j : ℕ} (hj : j < (npUnique v).length) :
    0 ≤ (merge_equal_quantiles v p).2.getD j 0 ∧
      (merge_equal_quantiles v p).2.getD j 0 ≤ 1 := by
  rw [merge_pu_getD v p hj]
  set u := (npUnique v).getD j 0 with hu
  have humem : u ∈ v := by
    rw [hu, List.getD_eq_getElem _ _ hj]
    exact mem_npUnique.mp (List.getElem_mem hj)
  have hne := groupProbs_ne_nil hlen humem
  rw [← groupProbs_length v p hlen u]
  constructor
  · apply le_mean_of_all_ge hne
    intro a ha
    exact (hpb a (groupProbs_subset_p ha)).1
  · apply mean_le_of_all_le hne
    intro a ha
    exact le_of_lt (hpb a (groupProbs_subset_p ha)).2

end ML4PS

namespace ML4PS

/-- C1: `merge_equal_quantiles` groups the breakpoints by identical
quantile value — its first component is the sorted duplicate-free value
list, whose members are exactly the values of `v` — and gives each
distinct value the arithmetic mean of the probabilities of all
breakpoints sharing it; on the spec's tie example `[1, 1, 2, 3]` with
probabilities `[0, 1/4, 1/2, 3/4]` the two breakpoints at value 1 merge
into one breakpoint with target probability `1/8`. -/
theorem merge_equal_quantiles_is_mean :
    ∀ (v p : List ℚ), v.length = p.length →
      ((merge_equal_quantiles v p).1 = npUnique v ∧
       (npUnique v).Nodup ∧
       (∀ a, a ∈ npUnique v ↔ a ∈ v) ∧
       (∀ j, j < (npUnique v).length →
         (merge_equal_quantiles v p).2.getD j 0
           = (groupProbs v p ((npUnique v).getD j 0)).sum
             / ((groupProbs v p ((npUnique v).getD j 0)).length : ℚ))) ∧
      merge_equal_quantiles [1, 1, 2, 3] [0, 1/4, 1/2, 3/4]
        = ([1, 2, 3], [1/8, 1/2, 3/4]) := by
  intro v p hlen
  refine ⟨⟨merge_fst v p, npUnique_nodup v, fun a => mem_npUnique, ?_⟩, ?_⟩
  · intro j hj
    rw [merge_pu_getD v p hj, groupProbs_length v p hlen]
  · norm_num [merge_equal_quantiles, npUnique, npSort, List.insertionSort,
      List.orderedInsert, List.dedup_cons_of_mem, List.dedup_cons_of_not_mem,
      addAt, List.indexOf_cons, List.count_cons, List.set, Bool.cond_eq_if,
      beq_iff_eq]

/-- Witness for C1 at the spec's tie example: the merged breakpoint at
value 1 carries the mean of its group's probabilities. -/
theorem merge_equal_quantiles_is_mean_witness :
    (merge_equal_quantiles [1, 1, 2, 3] [0, 1/4, 1/2, 3/4]).2.getD 0 0
      = (groupProbs [1, 1, 2, 3] [0, 1/4, 1/2, 3/4]
          ((npUnique [1, 1, 2, 3]).getD 0 0)).sum
        / ((groupProbs [1, 1, 2, 3] [0, 1/4, 1/2, 3/4]
            ((npUnique [1, 1, 2, 3]).getD 0 0)).length : ℚ) := by
  apply (merge_equal_quantiles_is_mean [1, 1, 2, 3] [0, 1/4, 1/2, 3/4] rfl).1.2.2.2 0
  norm_num [npUnique, npSort, List.insertionSort, List.orderedInsert,
    List.dedup_cons_of_mem, List.dedup_cons_of_not_mem]

/-- C2: on a non-empty observation list whose values all equal `c`, the
fitted function degenerates to `SubtractFunction(c)`; it maps `c` to 0
and `c + d` to `d` for every `d`. -/
theorem build_single_function_constant :
    ∀ (B : ℕ) (values : List ℚ) (c : ℚ), 1 ≤ B → values ≠ [] →
      (∀ x ∈ values, x = c) →
      build_single_function B values = some (NormFn.sub c) ∧
      NormFn.eval (NormFn.sub c) c = 0 ∧
      ∀ d : ℚ, NormFn.eval (NormFn.sub c) (c + d) = d := by
  intro B values c hB hne hall
  refine ⟨?_, by simp [NormFn.eval], fun d => by simp [NormFn.eval]⟩
  have hvne : (get_quantiles B values).1 ≠ [] := by
    intro h
    have hl := get_quantiles_v_length B values
    rw [h] at hl
    simp at hl
    omega
  have hvc := get_quantiles_v_const B values c hne hall hB
  have hvu : npUnique (get_quantiles B values).1 = [c] := npUnique_const hvne hvc
  rw [build_single_function, if_neg (by simp [hne])]
  simp only [merge_fst]
  rw [hvu]
  simp [merge_fst, hvu]

/-- Witness for C2 on the constant list `[5, 5]` with breakpoint count 4. -/
theorem build_single_function_constant_witness :
    build_single_function 4 [5, 5] = some (NormFn.sub 5) ∧
    NormFn.eval (NormFn.sub 5) 5 = 0 ∧
    ∀ d : ℚ, NormFn.eval (NormFn.sub 5) (5 + d) = d :=
  build_single_function_constant 4 [5, 5] 5 (by norm_num) (by simp)
    (by intro x hx; rcases List.mem_cons.mp hx with h | h; · exact h
        · simpa using h)

end ML4PS
namespace ML4PS

/-- C3: on a non-empty observation list with at least two distinct
quantile values, the fitted function is the piecewise-linear interpolant
through the points `(v_unique, -1 + 2 * p_unique)`: its breakpoints are
strictly increasing in `x` with nondecreasing targets, it passes through
every breakpoint, it is monotone nondecreasing on all of ℚ, and outside
the knot range it is the straight line of the nearest segment (first
segment below, last segment above) — it is total, never clamping and
never failing on out-of-range input. -/
theorem build_single_function_interp :
    ∀ (B : ℕ) (values : List ℚ), values ≠ [] →
      2 ≤ (merge_equal_quantiles (get_quantiles B values).1
            (get_quantiles B values).2).1.length →
      ∃ pts : List (ℚ × ℚ),
        build_single_function B values = some (NormFn.interp pts) ∧
        pts = (merge_equal_quantiles (get_quantiles B values).1
            (get_quantiles B values).2).1.zip
          ((merge_equal_quantiles (get_quantiles B values).1
              (get_quantiles B values).2).2.map (fun q => -1 + 2 * q)) ∧
        SortedPts pts ∧
        (∀ ab ∈ pts, interpEval pts ab.1 = ab.2) ∧
        (∀ x x' : ℚ, x ≤ x' → interpEval pts x ≤ interpEval pts x') ∧
        (∀ x : ℚ, x ≤ (pts.getD 0 (0, 0)).1 →
          interpEval pts x = (pts.getD 0 (0, 0)).2
            + (x - (pts.getD 0 (0, 0)).1)
              * ((pts.getD 1 (0, 0)).2 - (pts.getD 0 (0, 0)).2)
              / ((pts.getD 1 (0, 0)).1 - (pts.getD 0 (0, 0)).1)) ∧
        (∀ x : ℚ, (pts.getD (pts.length - 1) (0, 0)).1 ≤ x →
          interpEval pts x = (pts.getD (pts.length - 2) (0, 0)).2
            + (x - (pts.getD (pts.length - 2) (0, 0)).1)
              * ((pts.getD (pts.length - 1) (0, 0)).2
                  - (pts.getD (pts.length - 2) (0, 0)).2)
              / ((pts.getD (pts.length - 1) (0, 0)).1
                  - (pts.getD (pts.length - 2) (0, 0)).1)) := by
  intro B values hne h2
  have h2' : 2 ≤ (npUnique (get_quantiles B values).1).length := by
    rw [← merge_fst (get_quantiles B values).1 (get_quantiles B values).2]
    exact h2
  set v := (get_quantiles B values).1 with hvdef
  set p := (get_quantiles B values).2 with hpdef
  have hB : 1 ≤ B := by
    have hsub : (npUnique v).length ≤ v.length := by
      calc (npUnique v).length ≤ (npSort v).length :=
            List.Sublist.length_le (List.dedup_sublist _)
      _ = v.length := (npSort_perm v).length_eq
    have hvB : v.length = B := get_quantiles_v_length B values
    omega
  have hlen : v.length = p.length := get_quantiles_len_eq B values
  have hv := get_quantiles_v_pairwise B values hne hB
  have hp := get_quantiles_p_pairwise B values hB
  set pts := (merge_equal_quantiles v p).1.zip
    ((merge_equal_quantiles v p).2.map (fun q => -1 + 2 * q)) with hpts
  have hptslen : pts.length = (npUnique v).length := by
    rw [hpts, List.length_zip, merge_fst, List.length_map, merge_snd_length]
    omega
  have hsorted : SortedPts pts := by
    rw [hpts]
    have hvu : (merge_equal_quantiles v p).1.Pairwise (· < ·) := by
      rw [merge_fst]
      exact npUnique_pairwise_lt v
    have htgt : ((merge_equal_quantiles v p).2.map
        (fun q => -1 + 2 * q)).Pairwise (· ≤ ·) := by
      rw [List.pairwise_map]
      exact (merge_pu_pairwise v p hlen hv hp).imp (fun hq => by linarith)
    exact pairwise_zip _ _ hvu htgt
  have hbuild : build_single_function B values = some (NormFn.interp pts) := by
    rw [build_single_function, if_neg (by simp [hne])]
    simp only
    rw [if_neg (by rw [merge_fst, ← hvdef]; omega)]
  refine ⟨pts, hbuild, rfl, hsorted, interpEval_knot pts hsorted,
    interpEval_mono pts hsorted, ?_,
    interpEval_high pts hsorted (by rw [hptslen]; exact h2')⟩
  intro x hx
  match hpe : pts, hptslen with
  | [], hl =>
    simp only [List.length_nil] at hl
    omega
  | [a], hl =>
    simp only [List.length_cons, List.length_nil] at hl
    omega
  | a :: b :: rest, hl =>
    simp only [List.getD_cons_zero, List.getD_cons_succ] at hx ⊢
    exact interpEval_low hsorted hx

end ML4PS
namespace ML4PS

/-- Witness for C3 at breakpoint count 4 over the observations
`[1, 1, 2, 3]`, whose merge keeps three distinct quantile values. -/
theorem build_single_function_interp_witness :
    ∃ pts : List (ℚ × ℚ),
      build_single_function 4 [1, 1, 2, 3] = some (NormFn.interp pts) ∧
      SortedPts pts ∧
      ∀ x x' : ℚ, x ≤ x' → interpEval pts x ≤ interpEval pts x' := by
  obtain ⟨pts, h1, _, h3, _, h5, _, _⟩ :=
    build_single_function_interp 4 [1, 1, 2, 3] (by simp) (by
      norm_num [get_quantiles, List.range_succ, npQuantile, npSort,
        List.insertionSort, List.orderedInsert, merge_equal_quantiles, npUnique,
        List.dedup_cons_of_mem, List.dedup_cons_of_not_mem]
      simp
      norm_num [List.insertionSort, List.orderedInsert, List.dedup_cons_of_mem,
        List.dedup_cons_of_not_mem])
  exact ⟨pts, h1, h3, h5⟩

/-- C4 counterexample: on the constant observation list `[5]` with
breakpoint count 4 the fitted function is `SubtractFunction(5)`; at the
single fitted breakpoint value 5 it evaluates to 0, while the merged
target probability is `3/8`, so the claimed value `-1 + 2 * (3/8)` is
not attained. -/
theorem breakpoint_target_degenerate_counterexample :
    build_single_function 4 [5] = some (NormFn.sub 5) ∧
    (merge_equal_quantiles (get_quantiles 4 [5]).1 (get_quantiles 4 [5]).2)
      = ([5], [3/8]) ∧
    NormFn.eval (NormFn.sub 5) 5 = 0 ∧
    NormFn.eval (NormFn.sub 5) 5 ≠ -1 + 2 * (3/8 : ℚ) := by
  refine ⟨?_, ?_, by simp [NormFn.eval], by simp [NormFn.eval]; norm_num⟩
  · norm_num [build_single_function, get_quantiles, List.range_succ,
      npQuantile, npSort, List.insertionSort, List.orderedInsert,
      merge_equal_quantiles, npUnique, List.dedup_cons_of_mem,
      List.dedup_cons_of_not_mem, addAt, List.indexOf_cons, List.count_cons,
      List.set, Bool.cond_eq_if, beq_iff_eq]
  · norm_num [get_quantiles, List.range_succ, npQuantile, npSort,
      List.insertionSort, List.orderedInsert, merge_equal_quantiles, npUnique,
      List.dedup_cons_of_mem, List.dedup_cons_of_not_mem, addAt,
      List.indexOf_cons, List.count_cons, List.set, Bool.cond_eq_if,
      beq_iff_eq]

/-- C4 (amended): the quantile probabilities are exactly `i / B` for
`i = 0 .. B-1`; and whenever at least two distinct quantile values
remain after merging (the piecewise-linear case), the fitted function
evaluates at every fitted breakpoint `v_unique[j]` to
`-1 + 2 * p_unique[j]`, which lies in `[-1, 1]`.  (In the degenerate
single-value case the fitted `SubtractFunction` instead evaluates to 0
at its breakpoint.) -/
theorem quantile_grid_and_breakpoint_targets :
    ∀ (B : ℕ) (values : List ℚ), 1 ≤ B → values ≠ [] →
      ((get_quantiles B values).2.length = B ∧
       ∀ i, i < B → (get_quantiles B values).2.getD i 0 = (i : ℚ) / (B : ℚ)) ∧
      (2 ≤ (merge_equal_quantiles (get_quantiles B values).1
            (get_quantiles B values).2).1.length →
        ∃ pts, build_single_function B values = some (NormFn.interp pts) ∧
          ∀ j, j < (merge_equal_quantiles (get_quantiles B values).1
              (get_quantiles B values).2).1.length →
            NormFn.eval (NormFn.interp pts)
                ((merge_equal_quantiles (get_quantiles B values).1
                  (get_quantiles B values).2).1.getD j 0)
              = -1 + 2 * ((merge_equal_quantiles (get_quantiles B values).1
                  (get_quantiles B values).2).2.getD j 0) ∧
            (-1 : ℚ) ≤ NormFn.eval (NormFn.interp pts)
                ((merge_equal_quantiles (get_quantiles B values).1
                  (get_quantiles B values).2).1.getD j 0) ∧
            NormFn.eval (NormFn.interp pts)
                ((merge_equal_quantiles (get_quantiles B values).1
                  (get_quantiles B values).2).1.getD j 0) ≤ 1) := by
  intro B values hB hne
  refine ⟨⟨get_quantiles_p_length B values,
    fun i hi => get_quantiles_p_getD B values hi⟩, ?_⟩
  intro h2
  obtain ⟨pts, hbuild, hptseq, hsorted, hknot, _, _, _⟩ :=
    build_single_function_interp B values hne h2
  refine ⟨pts, hbuild, ?_⟩
  intro j hj
  set v := (get_quantiles B values).1 with hvdef
  set p := (get_quantiles B values).2 with hpdef
  have hlen : v.length = p.length := get_quantiles_len_eq B values
  have hj' : j < (npUnique v).length := by
    rw [← merge_fst v p]
    exact hj
  have hpulen : (merge_equal_quantiles v p).2.length = (npUnique v).length :=
    merge_snd_length v p
  have hjpu : j < (merge_equal_quantiles v p).2.length := by omega
  have hmem : ((merge_equal_quantiles v p).1.getD j 0,
      -1 + 2 * (merge_equal_quantiles v p).2.getD j 0) ∈ pts := by
    rw [hptseq]
    apply List.mem_iff_getElem.mpr
    have hj1 : j < (merge_equal_quantiles v p).1.length := hj
    have hjz : j < ((merge_equal_quantiles v p).1.zip
        ((merge_equal_quantiles v p).2.map (fun q => -1 + 2 * q))).length := by
      rw [List.length_zip, List.length_map]
      omega
    refine ⟨j, hjz, ?_⟩
    rw [List.getElem_zip, List.getElem_map,
      List.getD_eq_getElem _ _ hj1, List.getD_eq_getElem _ _ hjpu]
  have heval := hknot _ hmem
  have hbounds := merge_pu_bounds v p hlen (get_quantiles_p_mem B values hB) hj'
  have heval' : NormFn.eval (NormFn.interp pts)
      ((merge_equal_quantiles v p).1.getD j 0)
        = -1 + 2 * (merge_equal_quantiles v p).2.getD j 0 := by
    simpa [NormFn.eval] using heval
  refine ⟨heval', ?_, ?_⟩
  · rw [heval']
    linarith [hbounds.1]
  · rw [heval']
    linarith [hbounds.2]

/-- Witness for C4's amended theorem: the probability grid of
`break_points = 4` at index 1 is `1/4`. -/
theorem quantile_grid_and_breakpoint_targets_witness :
    (get_quantiles 4 [1, 1, 2, 3]).2.getD 1 0 = (1 : ℚ) / (4 : ℚ) :=
  ((quantile_grid_and_breakpoint_targets 4 [1, 1, 2, 3] (by norm_num)
    (by simp)).1).2 1 (by norm_num)

end ML4PS
